import Mathlib

/-
Verification of the world-inspector core of bevy-inspector-egui
(src/world_inspector/mod.rs).

The development embeds, over plain Lean data types:
 * the type-name shortening function short_name (strings are modelled
   as lists of characters; all indices in the source are byte indices,
   which coincide with character positions on the ASCII names involved),
 * the snapshot index built by WorldUIContext::new (archetype scan),
 * the per-entity rendering walk of WorldUIContext::entity_ui, with the
   egui calls abstracted to an event tree and the external inspector
   dispatcher abstracted to an oracle,
 * the WorldInspectorParams ignore set.

Rust panics (unchecked unwrap, HashMap indexing, failed assert_eq,
out-of-order slice ranges) are modelled by returning none.
-/

/-! ## Type-name shortening (short_name, mod.rs lines 158-180) -/

/-- Index of the first occurrence of character c, as in Rust str::find. -/
def findChar (c : Char) : List Char → Option Nat
  | [] => none
  | x :: xs => if x = c then some 0 else (findChar c xs).map (· + 1)

/-- Index of the last occurrence of character c, as in Rust str::rfind. -/
def rfindChar (c : Char) : List Char → Option Nat
  | [] => none
  | x :: xs =>
    match rfindChar c xs with
    | some i => some (i + 1)
    | none => if x = c then some 0 else none

/-- Start index of the last occurrence of the two-character namespace
separator, as in Rust str::rfind applied to the colon-colon pattern
(this is also where rsplit on that pattern makes its first cut). -/
def rfindSep : List Char → Option Nat
  | [] => none
  | x :: xs =>
    match rfindSep xs with
    | some i => some (i + 1)
    | none => if x = ':' ∧ xs.head? = some ':' then some 0 else none

/-- Last namespace segment of a string without generics: the suffix after
the last namespace separator, or the whole string when there is none.
This is the treatment short_name applies to the part before the first
angle bracket (mod.rs lines 170-173). -/
def shortBeforeGenerics (b : List Char) : List Char :=
  match rfindSep b with
  | none => b
  | some i => b.drop (i + 2)

/-- Fuel-indexed version of short_name; the fuel only bounds the recursion
depth (one unit per generic nesting level) so that the recursion is
structural, and is irrelevant as soon as it is at least the string length
(theorem shortNameF_fuel).  The none results model panics of the Rust
code: the unchecked unwrap of rfind when an opening angle bracket has no
closing one, and the slice when the last closing bracket precedes
the first opening one. -/
def shortNameF (fuel : Nat) (s : List Char) : Option (List Char) :=
  match findChar '<' s with
  | none =>
    -- no generics: type_name.rsplit("::").next().unwrap_or(type_name)
    match rfindSep s with
    | none => some s
    | some i => some (s.drop (i + 2))
  | some angle_open =>
    match rfindChar '>' s with
    | none => none -- type_name.rfind('>').unwrap() panics
    | some angle_close =>
      if angle_open + 1 ≤ angle_close then
        let before_generics := s.take angle_open
        let after := s.drop (angle_close + 1)
        let in_between := (s.take angle_close).drop (angle_open + 1)
        let bg := shortBeforeGenerics before_generics
        match fuel with
        | 0 => none
        | fuel' + 1 =>
          match shortNameF fuel' in_between with
          | none => none
          | some ib => some (bg ++ '<' :: (ib ++ '>' :: after))
      else none -- the slice type_name[angle_open + 1..angle_close] panics

/-- Embedding of short_name (mod.rs lines 158-180).  Success values are
returned in some; a panic of the Rust code is none. -/
def short_name (s : List Char) : Option (List Char) :=
  shortNameF s.length s

/-! ## Snapshot index built by WorldUIContext::new (mod.rs lines 31-61)

Entities are abstract identifiers (Nat), a TypeInfo is a stable type id
plus a fully qualified type name, an Archetype is the slot-ordered list
of its entities together with the component-type list shared by all of
them.  The components HashMap is modelled as an association list whose
keys are unique by construction; lookups see the first matching entry,
like the HashMap sees its only one. -/

/-- Component type descriptor: bevy's TypeInfo, reduced to the two fields
the inspector reads (TypeInfo::id and TypeInfo::type_name). -/
structure TypeInfo where
  id : Nat
  type_name : List Char
deriving DecidableEq

/-- Location of an entity inside the storage: bevy's Location.  The
archetype field is a u32 in the source and WorldUIContext::new stores
archetype_index as u32, so the embedded value carries the truncation
modulo 2 ^ 32 explicitly. -/
structure Location where
  archetype : Nat
  index : Nat
deriving DecidableEq

/-- Storage group: slot-ordered entities plus the shared component-type
list (archetype.iter_entities and archetype.types in the source). -/
structure Archetype where
  entities : List Nat
  types : List TypeInfo
deriving DecidableEq

/-- Value of the components field of WorldUIContext: entity to
(Location, component-type list), as an association list. -/
abbrev SnapshotMap := List (Nat × Location × List TypeInfo)

/-- Lookup of an entity in the components map. -/
def lookupEntry (m : SnapshotMap) (e : Nat) : Option (Location × List TypeInfo) :=
  match m.find? (fun p => p.1 == e) with
  | none => none
  | some p => some p.2

/-- Append further component types to the recorded entry of an entity
(the Vec::extend on the entry in mod.rs line 47). -/
def appendTypes (m : SnapshotMap) (e : Nat) (tys : List TypeInfo) : SnapshotMap :=
  m.map (fun p => if p.1 = e then (p.1, p.2.1, p.2.2 ++ tys) else p)

/-- Keys of the components map. -/
def keysOf (m : SnapshotMap) : List Nat :=
  m.map (fun p => p.1)

/-- Processing of one (entity, location) occurrence during the scan
(mod.rs lines 35-47): get or insert the entry with an empty type list,
assert that the recorded location equals the computed one (a failed
assert_eq aborts: none), then extend the entry with the group's types.
For a freshly inserted entry the asserts compare the location with
itself. -/
def visitEntityLoc (m : SnapshotMap) (location : Location) (tys : List TypeInfo)
    (e : Nat) : Option SnapshotMap :=
  match lookupEntry m e with
  | none =>
    if location.archetype = location.archetype then
      if location.index = location.index then
        some (appendTypes (m ++ [(e, location, [])]) e tys)
      else none
    else none
  | some entry =>
    if location.archetype = entry.1.archetype then
      if location.index = entry.1.index then
        some (appendTypes m e tys)
      else none
    else none

/-- Inner loop of WorldUIContext::new over the enumerated entities of one
archetype; gi is the enumerated archetype index. -/
def visitEntities (m : SnapshotMap) (gi : Nat) (tys : List TypeInfo) :
    List (Nat × Nat) → Option SnapshotMap
  | [] => some m
  | (entity_index, e) :: rest =>
    match visitEntityLoc m ⟨gi % 2 ^ 32, entity_index⟩ tys e with
    | none => none
    | some m' => visitEntities m' gi tys rest

/-- One archetype scan. -/
def visitArchetype (m : SnapshotMap) (gi : Nat) (arch : Archetype) :
    Option SnapshotMap :=
  visitEntities m gi arch.types arch.entities.enum

/-- Outer loop of WorldUIContext::new over the enumerated archetypes. -/
def visitArchetypes (m : SnapshotMap) : List (Nat × Archetype) → Option SnapshotMap
  | [] => some m
  | (gi, arch) :: rest =>
    match visitArchetype m gi arch with
    | none => none
    | some m' => visitArchetypes m' rest

/-- The components map built by WorldUIContext::new from the world's
archetype list; none models the abort on a failed assert_eq. -/
def buildComponents (archs : List Archetype) : Option SnapshotMap :=
  visitArchetypes [] archs.enum

/-! ### Flattened view of the scan, used by the specification -/

/-- One occurrence processed by the scan: the entity, the Location
computed for it, and the component types of its group. -/
structure Step where
  entity : Nat
  loc : Location
  types : List TypeInfo
deriving DecidableEq

/-- Occurrences contributed by one archetype, in slot order. -/
def archSteps (gi : Nat) (arch : Archetype) : List Step :=
  arch.entities.enum.map (fun p => ⟨p.2, ⟨gi % 2 ^ 32, p.1⟩, arch.types⟩)

/-- All occurrences processed by the scan, in scan order. -/
def buildSteps (archs : List Archetype) : List Step :=
  (archs.enum.map (fun p => archSteps p.1 p.2)).flatten

/-- Processing of a single flattened occurrence. -/
def runStep (m : SnapshotMap) (s : Step) : Option SnapshotMap :=
  visitEntityLoc m s.loc s.types s.entity

/-- Processing of a list of flattened occurrences. -/
def runSteps (m : SnapshotMap) : List Step → Option SnapshotMap
  | [] => some m
  | s :: L =>
    match runStep m s with
    | none => none
    | some m' => runSteps m' L

/-- Occurrences of one entity among a list of steps, in scan order. -/
def stepsFor (L : List Step) (e : Nat) : List Step :=
  L.filter (fun s => s.entity == e)

/-- Entry the scan is expected to produce for an entity: the Location of
its first occurrence, and the concatenation of the component-type lists
of all its occurrences in scan order. -/
def specEntry (L : List Step) (e : Nat) : Option (Location × List TypeInfo) :=
  match stepsFor L e with
  | [] => none
  | s :: _ => some (s.loc, ((stepsFor L e).map Step.types).flatten)

/-- Consistency of a list of occurrences: any two occurrences of the same
entity report the same Location. -/
def Consistent (L : List Step) : Prop :=
  ∀ s1 ∈ L, ∀ s2 ∈ L, s1.entity = s2.entity → s1.loc = s2.loc

/-! ## Rendering (WorldInspectorParams and WorldUIContext::entity_ui)

The egui interface is abstracted to a tree of events: a label, a
separator, or a collapsible region given by its header and the events
its body callback draws. -/

/-- Output of the abstract UI interface. -/
inductive UIEvent : Type where
  | label (text : List Char) : UIEvent
  | separator : UIEvent
  | collapsing (header : List Char) (body : List UIEvent) : UIEvent

/-- Resource which controls the way the world inspector is shown
(ignore_components is bevy's HashSet of TypeIds, modelled as the list of
its elements). -/
structure WorldInspectorParams where
  ignore_components : List Nat

/-- Embedding of WorldInspectorParams::ignore_component (mod.rs lines
130-132): insert the TypeId of T into the ignore set.  HashSet::insert
on an already present element leaves the set unchanged. -/
def WorldInspectorParams.ignore_component (params : WorldInspectorParams)
    (t : Nat) : WorldInspectorParams :=
  if params.ignore_components.contains t then params
  else ⟨t :: params.ignore_components⟩

/-- Embedding of WorldInspectorParams::should_ignore_component (mod.rs
lines 134-136). -/
def WorldInspectorParams.should_ignore_component (params : WorldInspectorParams)
    (type_id : Nat) : Bool :=
  params.ignore_components.contains type_id

/-- External collaborators of entity_ui.  generate is the inspector
dispatcher.  Modelled from the spec: InspectableRegistry::generate is not
part of the analysed source; per the specification the dispatcher either
produces a rendered representation (some events, returning true) or
reports inability to do so (returning false), drawing nothing in that
case.  names resolves an entity's Name component (world.get::<Name>). -/
structure RenderEnv where
  generate : Location → TypeInfo → Option (List UIEvent)
  names : Nat → Option (List Char)

/-- Embedding of WorldUIContext::entity_name (mod.rs lines 68-73). -/
def entity_name (env : RenderEnv) (entity : Nat) : List Char :=
  match env.names entity with
  | some n => n
  | none => ("Entity ".data) ++ (Nat.repr entity).data

/-- Embedding of WorldUIContext::components_of (mod.rs lines 63-66): the
unguarded HashMap indexing self.components[&entity] panics (none) when
the entity has no snapshot entry. -/
def components_of (m : SnapshotMap) (entity : Nat) :
    Option (List (Location × TypeInfo)) :=
  match lookupEntry m entity with
  | none => none
  | some lt => some (lt.2.map (fun type_info => (lt.1, type_info)))

/-- Fallback message of mod.rs line 108. -/
def inspectableFallback : List Char :=
  "Inspectable has not been defined for this component".data

/-- Rendering of one component of an entity (the loop body of mod.rs
lines 89-111): an ignored component emits nothing, otherwise a
collapsible region headed by the shortened type name whose body is the
dispatcher's rendering, or the literal fallback label when the
dispatcher reports it could not display the component.  A none result
propagates a short_name panic. -/
def componentUI (env : RenderEnv) (params : WorldInspectorParams)
    (location : Location) (type_info : TypeInfo) : Option (List UIEvent) :=
  if params.should_ignore_component type_info.id then some []
  else
    match short_name type_info.type_name with
    | none => none
    | some sn =>
      some [UIEvent.collapsing sn
        (match env.generate location type_info with
          | some out => out
          | none => [UIEvent.label inspectableFallback])]

/-- Rendering of all components of an entity: the loop of mod.rs lines
89-111 over the (Location, TypeInfo) pairs yielded by components_of. -/
def compUIs (env : RenderEnv) (params : WorldInspectorParams) :
    List (Location × TypeInfo) → Option (List UIEvent)
  | [] => some []
  | (location, type_info) :: rest =>
    match componentUI env params location type_info with
    | none => none
    | some evs =>
      match compUIs env params rest with
      | none => none
      | some evs' => some (evs ++ evs')

/-- Acyclic unfolding of the parent/children relation walked by
entity_ui: a forest is a list of entities, each recording the value of
world.get::<Children> for it (nodeNoChildren when the entity has no
Children component, nodeChildren with the unfolded child forest
otherwise).  The walk assumes the relation is acyclic, which makes this
unfolding well founded. -/
inductive EntityForest : Type where
  | nil : EntityForest
  | nodeNoChildren (entity : Nat) (rest : EntityForest) : EntityForest
  | nodeChildren (entity : Nat) (children : EntityForest) (rest : EntityForest) :
      EntityForest

/-- Entities of a forest, in visit order. -/
def forestEntities : EntityForest → List Nat
  | .nil => []
  | .nodeNoChildren e rest => e :: forestEntities rest
  | .nodeChildren e f rest => e :: (forestEntities f ++ forestEntities rest)

/-- Assembly of the collapsible region of one entity (the closure passed
to ui.collapsing in mod.rs lines 86-124): the Components label, the
component regions, a separator, then the children part. -/
def entityRegion (env : RenderEnv) (e : Nat) (compEvents childPart : List UIEvent) :
    UIEvent :=
  UIEvent.collapsing (entity_name env e)
    (UIEvent.label ("Components".data) :: compEvents ++
      UIEvent.separator :: childPart)

/-- Embedding of WorldUIContext::entity_ui (mod.rs lines 85-125), mapped
over a sibling list: for each entity, a collapsible region headed by
entity_name whose body is the Components label, the component regions,
a separator, then either the Children label followed by the recursively
rendered children or the literal No children label.  none models a
panic (components_of on a missing entity, or short_name). -/
def entityUIList (env : RenderEnv) (m : SnapshotMap)
    (params : WorldInspectorParams) : EntityForest → Option (List UIEvent)
  | .nil => some []
  | .nodeNoChildren e rest =>
    match components_of m e with
    | none => none
    | some comps =>
      match compUIs env params comps with
      | none => none
      | some compEvents =>
        match entityUIList env m params rest with
        | none => none
        | some restEvents =>
          some (entityRegion env e compEvents [UIEvent.label ("No children".data)] ::
            restEvents)
  | .nodeChildren e f rest =>
    match components_of m e with
    | none => none
    | some comps =>
      match compUIs env params comps with
      | none => none
      | some compEvents =>
        match entityUIList env m params f with
        | none => none
        | some cevs =>
          match entityUIList env m params rest with
          | none => none
          | some restEvents =>
            some (entityRegion env e compEvents
              (UIEvent.label ("Children".data) :: cevs) :: restEvents)

/-! ## Basic facts about the index searches -/

theorem findChar_cons (c x : Char) (xs : List Char) :
    findChar c (x :: xs) =
      if x = c then some 0 else (findChar c xs).map (· + 1) := rfl

theorem rfindChar_cons (c x : Char) (xs : List Char) :
    rfindChar c (x :: xs) =
      match rfindChar c xs with
      | some i => some (i + 1)
      | none => if x = c then some 0 else none := rfl

theorem rfindSep_cons (x : Char) (xs : List Char) :
    rfindSep (x :: xs) =
      match rfindSep xs with
      | some i => some (i + 1)
      | none => if x = ':' ∧ xs.head? = some ':' then some 0 else none := rfl

theorem findChar_eq_none_iff (c : Char) (s : List Char) :
    findChar c s = none ↔ c ∉ s := by
  induction s with
  | nil => simp [findChar]
  | cons x xs ih =>
    rw [findChar_cons]
    by_cases hx : x = c
    · subst hx
      simp
    · rw [if_neg hx, Option.map_eq_none', ih]
      constructor
      · intro h hmem
        rcases List.mem_cons.mp hmem with h1 | h1
        · exact hx h1.symm
        · exact h h1
      · intro h hmem
        exact h (List.mem_cons_of_mem x hmem)

theorem findChar_isSome_of_mem {c : Char} {s : List Char} (h : c ∈ s) :
    (findChar c s).isSome = true := by
  cases hf : findChar c s with
  | none => exact absurd ((findChar_eq_none_iff c s).mp hf) (not_not_intro h)
  | some i => rfl

theorem findChar_lt_length {c : Char} {s : List Char} {i : Nat}
    (h : findChar c s = some i) : i < s.length := by
  induction s generalizing i with
  | nil => cases h
  | cons x xs ih =>
    rw [findChar_cons] at h
    by_cases hx : x = c
    · rw [if_pos hx] at h
      have hi : i = 0 := (Option.some.inj h).symm
      simp [hi]
    · rw [if_neg hx] at h
      cases hf : findChar c xs with
      | none => rw [hf] at h; cases h
      | some j =>
        rw [hf] at h
        have hij : i = j + 1 := (Option.some.inj h).symm
        have := ih hf
        simp only [List.length_cons]
        omega

theorem rfindChar_eq_none_iff (c : Char) (s : List Char) :
    rfindChar c s = none ↔ c ∉ s := by
  induction s with
  | nil => simp [rfindChar]
  | cons x xs ih =>
    rw [rfindChar_cons]
    cases hf : rfindChar c xs with
    | some i =>
      have hmem : c ∈ xs := by
        by_contra hc
        rw [ih.mpr hc] at hf
        cases hf
      constructor
      · intro h; cases h
      · intro h; exact absurd (List.mem_cons_of_mem x hmem) h
    | none =>
      have hns : c ∉ xs := ih.mp hf
      by_cases hx : x = c
      · subst hx
        simp
      · rw [if_neg hx]
        constructor
        · intro _ hmem
          rcases List.mem_cons.mp hmem with h1 | h1
          · exact hx h1.symm
          · exact hns h1
        · intro _
          rfl

theorem rfindChar_lt_length {c : Char} {s : List Char} {i : Nat}
    (h : rfindChar c s = some i) : i < s.length := by
  induction s generalizing i with
  | nil => cases h
  | cons x xs ih =>
    rw [rfindChar_cons] at h
    cases hf : rfindChar c xs with
    | none =>
      rw [hf] at h
      by_cases hx : x = c
      · rw [if_pos hx] at h
        have hi : i = 0 := (Option.some.inj h).symm
        simp [hi]
      · rw [if_neg hx] at h
        cases h
    | some j =>
      rw [hf] at h
      have hij : i = j + 1 := (Option.some.inj h).symm
      have := ih hf
      simp only [List.length_cons]
      omega

theorem rfindSep_some_decomp {s : List Char} {i : Nat}
    (h : rfindSep s = some i) :
    ∃ l1 l2, s = l1 ++ ':' :: ':' :: l2 ∧ l1.length = i := by
  induction s generalizing i with
  | nil => cases h
  | cons x xs ih =>
    rw [rfindSep_cons] at h
    cases hf : rfindSep xs with
    | some j =>
      rw [hf] at h
      have hij : i = j + 1 := (Option.some.inj h).symm
      obtain ⟨l1, l2, hdec, hlen⟩ := ih hf
      refine ⟨x :: l1, l2, by simp [hdec], ?_⟩
      simp only [List.length_cons]
      omega
    | none =>
      rw [hf] at h
      by_cases hx : x = ':' ∧ xs.head? = some ':'
      · rw [if_pos hx] at h
        have hi : i = 0 := (Option.some.inj h).symm
        obtain ⟨hx1, hx2⟩ := hx
        cases xs with
        | nil => cases hx2
        | cons y ys =>
          have hy : y = ':' := by simpa using hx2
          refine ⟨[], ys, ?_, by simp [hi]⟩
          rw [hx1, hy]
          rfl
      · rw [if_neg hx] at h
        cases h

theorem rfindSep_isSome_of_decomp (l1 l2 : List Char) :
    (rfindSep (l1 ++ ':' :: ':' :: l2)).isSome = true := by
  induction l1 with
  | nil =>
    rw [List.nil_append, rfindSep_cons]
    cases hf : rfindSep (':' :: l2) with
    | some i => simp
    | none => simp
  | cons x l1 ih =>
    rw [List.cons_append, rfindSep_cons]
    cases hf : rfindSep (l1 ++ ':' :: ':' :: l2) with
    | none => rw [hf] at ih; simp at ih
    | some i => simp

theorem rfindSep_eq_none_of_noSep {s : List Char}
    (h : ¬ ∃ l1 l2, s = l1 ++ ':' :: ':' :: l2) : rfindSep s = none := by
  cases hf : rfindSep s with
  | none => rfl
  | some i =>
    obtain ⟨l1, l2, hdec, _⟩ := rfindSep_some_decomp hf
    exact absurd ⟨l1, l2, hdec⟩ h

theorem noSep_of_rfindSep_eq_none {s : List Char}
    (h : rfindSep s = none) : ¬ ∃ l1 l2, s = l1 ++ ':' :: ':' :: l2 := by
  rintro ⟨l1, l2, rfl⟩
  have := rfindSep_isSome_of_decomp l1 l2
  rw [h] at this
  simp at this

/-! ## Fuel irrelevance and the defining equation of short_name -/

theorem shortNameF_fuel : ∀ (f g : Nat) (s : List Char),
    s.length ≤ f → s.length ≤ g → shortNameF f s = shortNameF g s := by
  intro f
  induction f with
  | zero =>
    intro g s hf hg
    have : s = [] := List.length_eq_zero.mp (Nat.le_zero.mp hf)
    subst this
    cases g <;> rfl
  | succ f ih =>
    intro g s hf hg
    cases hfind : findChar '<' s with
    | none =>
      unfold shortNameF
      simp only [hfind]
    | some angle_open =>
      have hlen : 0 < s.length := Nat.lt_of_le_of_lt (Nat.zero_le _) (findChar_lt_length hfind)
      cases g with
      | zero => omega
      | succ g =>
        unfold shortNameF
        simp only [hfind]
        cases hrf : rfindChar '>' s with
        | none => rfl
        | some angle_close =>
          by_cases hle : angle_open + 1 ≤ angle_close
          · simp only [if_pos hle]
            have hacl : angle_close < s.length := rfindChar_lt_length hrf
            have hib1 : ((s.take angle_close).drop (angle_open + 1)).length ≤ f := by
              rw [List.length_drop, List.length_take]
              omega
            have hib2 : ((s.take angle_close).drop (angle_open + 1)).length ≤ g := by
              rw [List.length_drop, List.length_take]
              omega
            rw [ih g ((s.take angle_close).drop (angle_open + 1)) hib1 hib2]
          · simp only [if_neg hle]

theorem short_name_def (s : List Char) :
    short_name s =
      match findChar '<' s with
      | none =>
        match rfindSep s with
        | none => some s
        | some i => some (s.drop (i + 2))
      | some angle_open =>
        match rfindChar '>' s with
        | none => none
        | some angle_close =>
          if angle_open + 1 ≤ angle_close then
            match short_name ((s.take angle_close).drop (angle_open + 1)) with
            | none => none
            | some ib =>
              some (shortBeforeGenerics (s.take angle_open) ++
                '<' :: (ib ++ '>' :: s.drop (angle_close + 1)))
          else none := by
  show shortNameF s.length s = _
  cases hfind : findChar '<' s with
  | none =>
    unfold shortNameF
    simp only [hfind]
  | some angle_open =>
    have hlen : 0 < s.length := Nat.lt_of_le_of_lt (Nat.zero_le _) (findChar_lt_length hfind)
    obtain ⟨n, hn⟩ : ∃ n, s.length = n + 1 := ⟨s.length - 1, by omega⟩
    rw [hn]
    unfold shortNameF
    simp only [hfind]
    cases hrf : rfindChar '>' s with
    | none => rfl
    | some angle_close =>
      by_cases hle : angle_open + 1 ≤ angle_close
      · simp only [if_pos hle]
        have hacl : angle_close < s.length := rfindChar_lt_length hrf
        have heq : shortNameF n ((s.take angle_close).drop (angle_open + 1)) =
            short_name ((s.take angle_close).drop (angle_open + 1)) := by
          rw [short_name]
          apply shortNameF_fuel
          · rw [List.length_drop, List.length_take]
            omega
          · exact Nat.le_refl _
        rw [heq]
      · simp only [if_neg hle]

/-! ## Facts about the components map -/

theorem lookupEntry_nil (e : Nat) : lookupEntry [] e = none := rfl

theorem lookupEntry_cons (p : Nat × Location × List TypeInfo) (m : SnapshotMap)
    (e : Nat) :
    lookupEntry (p :: m) e = if p.1 = e then some p.2 else lookupEntry m e := by
  unfold lookupEntry
  rw [List.find?_cons]
  by_cases h : p.1 = e
  · have hb : (p.1 == e) = true := beq_iff_eq.mpr h
    rw [hb, if_pos h]
  · have hb : (p.1 == e) = false := beq_eq_false_iff_ne.mpr h
    rw [hb, if_neg h]

theorem appendTypes_cons (p : Nat × Location × List TypeInfo) (m : SnapshotMap)
    (k : Nat) (tys : List TypeInfo) :
    appendTypes (p :: m) k tys =
      (if p.1 = k then (p.1, p.2.1, p.2.2 ++ tys) else p) :: appendTypes m k tys := rfl

theorem lookupEntry_append_of_none {m : SnapshotMap} {e : Nat}
    (h : lookupEntry m e = none) (k : Nat) (v : Location × List TypeInfo) :
    lookupEntry (m ++ [(k, v)]) e = if k = e then some v else none := by
  induction m with
  | nil =>
    rw [List.nil_append, lookupEntry_cons]
    rfl
  | cons p m ih =>
    rw [lookupEntry_cons] at h
    by_cases hp : p.1 = e
    · rw [if_pos hp] at h
      cases h
    · rw [if_neg hp] at h
      rw [List.cons_append, lookupEntry_cons, if_neg hp]
      exact ih h

theorem lookupEntry_append_of_some {m : SnapshotMap} {e : Nat}
    {q : Location × List TypeInfo} (h : lookupEntry m e = some q)
    (l : SnapshotMap) : lookupEntry (m ++ l) e = some q := by
  induction m with
  | nil => cases h
  | cons p m ih =>
    rw [lookupEntry_cons] at h
    rw [List.cons_append, lookupEntry_cons]
    by_cases hp : p.1 = e
    · rw [if_pos hp] at h ⊢
      exact h
    · rw [if_neg hp] at h ⊢
      exact ih h

theorem lookupEntry_appendTypes (m : SnapshotMap) (k : Nat) (tys : List TypeInfo)
    (e : Nat) :
    lookupEntry (appendTypes m k tys) e =
      if k = e then (lookupEntry m e).map (fun q => (q.1, q.2 ++ tys))
      else lookupEntry m e := by
  induction m with
  | nil =>
    by_cases h : k = e <;> simp [h, appendTypes, lookupEntry_nil]
  | cons p m ih =>
    rw [appendTypes_cons, lookupEntry_cons, lookupEntry_cons]
    by_cases hp : p.1 = e
    · by_cases hk : k = e
      · have hpk : p.1 = k := by rw [hp, hk]
        simp only [if_pos hpk, if_pos hp, if_pos hk]
        rfl
      · have hpk : ¬ p.1 = k := fun hc => hk (hc ▸ hp)
        simp only [if_neg hpk, if_pos hp, if_neg hk]
    · by_cases hk : k = e
      · have hpk : ¬ p.1 = k := fun hc => hp (by rw [hc, hk])
        simp only [if_neg hpk, if_neg hp, if_pos hk, ih]
      · by_cases hpk : p.1 = k
        · simp only [if_pos hpk, if_neg hp, if_neg hk, ih]
        · simp only [if_neg hpk, if_neg hp, if_neg hk, ih]

theorem keysOf_append (m l : SnapshotMap) : keysOf (m ++ l) = keysOf m ++ keysOf l := by
  unfold keysOf
  rw [List.map_append]

theorem keysOf_appendTypes (m : SnapshotMap) (k : Nat) (tys : List TypeInfo) :
    keysOf (appendTypes m k tys) = keysOf m := by
  induction m with
  | nil => rfl
  | cons p m ih =>
    rw [appendTypes_cons]
    unfold keysOf at ih ⊢
    rw [List.map_cons, List.map_cons, ih]
    by_cases hp : p.1 = k
    · rw [if_pos hp]
    · rw [if_neg hp]

theorem lookupEntry_eq_none_iff (m : SnapshotMap) (e : Nat) :
    lookupEntry m e = none ↔ e ∉ keysOf m := by
  induction m with
  | nil => simp [lookupEntry_nil, keysOf]
  | cons p m ih =>
    rw [lookupEntry_cons]
    unfold keysOf
    rw [List.map_cons]
    by_cases hp : p.1 = e
    · rw [if_pos hp]
      simp [hp]
    · rw [if_neg hp]
      rw [ih]
      unfold keysOf
      constructor
      · intro h hmem
        rcases List.mem_cons.mp hmem with h1 | h1
        · exact hp h1.symm
        · exact h h1
      · intro h hmem
        exact h (List.mem_cons_of_mem _ hmem)

/-! ## Facts about the flattened scan -/

theorem runSteps_cons (m : SnapshotMap) (s : Step) (L : List Step) :
    runSteps m (s :: L) =
      match runStep m s with
      | none => none
      | some m' => runSteps m' L := rfl

theorem runSteps_append (L1 L2 : List Step) : ∀ m : SnapshotMap,
    runSteps m (L1 ++ L2) =
      (runSteps m L1).bind (fun m' => runSteps m' L2) := by
  induction L1 with
  | nil => intro m; rfl
  | cons s L1 ih =>
    intro m
    rw [List.cons_append, runSteps_cons, runSteps_cons]
    cases runStep m s with
    | none => rfl
    | some m' => exact ih m'

theorem runSteps_singleton (m : SnapshotMap) (s : Step) :
    runSteps m [s] = runStep m s := by
  unfold runSteps
  cases runStep m s with
  | none => rfl
  | some m' => rfl

theorem consistent_nil : Consistent [] := by
  intro s1 h1
  cases h1

theorem consistent_append_singleton (L : List Step) (s : Step) :
    Consistent (L ++ [s]) ↔
      Consistent L ∧ ∀ s' ∈ L, s'.entity = s.entity → s'.loc = s.loc := by
  constructor
  · intro h
    refine ⟨?_, ?_⟩
    · intro s1 h1 s2 h2 he
      exact h s1 (List.mem_append_left _ h1) s2 (List.mem_append_left _ h2) he
    · intro s' hs' he
      exact h s' (List.mem_append_left _ hs') s
        (List.mem_append_right _ (List.mem_singleton.mpr rfl)) he
  · rintro ⟨hL, hs⟩ s1 h1 s2 h2 he
    rcases List.mem_append.mp h1 with h1' | h1' <;>
      rcases List.mem_append.mp h2 with h2' | h2'
    · exact hL s1 h1' s2 h2' he
    · rw [List.mem_singleton.mp h2'] at he ⊢
      exact hs s1 h1' he
    · rw [List.mem_singleton.mp h1'] at he ⊢
      exact (hs s2 h2' he.symm).symm
    · rw [List.mem_singleton.mp h1', List.mem_singleton.mp h2']

theorem stepsFor_append_singleton (L : List Step) (s : Step) (e : Nat) :
    stepsFor (L ++ [s]) e =
      stepsFor L e ++ if s.entity = e then [s] else [] := by
  unfold stepsFor
  rw [List.filter_append]
  by_cases h : s.entity = e
  · have hb : (s.entity == e) = true := beq_iff_eq.mpr h
    simp [List.filter, hb, h]
  · have hb : (s.entity == e) = false := beq_eq_false_iff_ne.mpr h
    simp [List.filter, hb, h]

theorem specEntry_eq_none_iff (L : List Step) (e : Nat) :
    specEntry L e = none ↔ stepsFor L e = [] := by
  unfold specEntry
  cases h : stepsFor L e with
  | nil => simp
  | cons q rest => simp

theorem mem_of_mem_stepsFor {L : List Step} {e : Nat} {q : Step}
    (h : q ∈ stepsFor L e) : q ∈ L ∧ q.entity = e := by
  unfold stepsFor at h
  have := List.mem_filter.mp h
  exact ⟨this.1, beq_iff_eq.mp this.2⟩

theorem stepsFor_ne_nil_of_mem {L : List Step} {s' : Step} {e : Nat}
    (hmem : s' ∈ L) (he : s'.entity = e) : stepsFor L e ≠ [] := by
  intro hnil
  have : s' ∈ stepsFor L e := by
    unfold stepsFor
    exact List.mem_filter.mpr ⟨hmem, beq_iff_eq.mpr he⟩
  rw [hnil] at this
  cases this

theorem location_eq_of_fields : ∀ {l1 l2 : Location},
    l1.archetype = l2.archetype → l1.index = l2.index → l1 = l2
  | ⟨_, _⟩, ⟨_, _⟩, h1, h2 => by
    cases h1
    cases h2
    rfl

/-- Main specification of the scan: it succeeds exactly on consistent
occurrence lists, and on success the map has no duplicate keys and each
entity's entry is the Location of its first occurrence paired with the
concatenation of the type lists of all its occurrences in scan order. -/
theorem runSteps_spec (L : List Step) :
    (Consistent L → (runSteps [] L).isSome = true) ∧
    (∀ m, runSteps [] L = some m →
      Consistent L ∧ (keysOf m).Nodup ∧ ∀ e, lookupEntry m e = specEntry L e) := by
  induction L using List.reverseRecOn with
  | nil =>
    constructor
    · intro _
      rfl
    · intro m hm
      have hm2 : (some ([] : SnapshotMap)) = some m := hm
      have hm' : m = [] := (Option.some.inj hm2).symm
      subst hm'
      exact ⟨consistent_nil, List.nodup_nil, fun e => rfl⟩
  | append_singleton L s ih =>
    rw [runSteps_append]
    cases hR : runSteps [] L with
    | none =>
      rw [Option.none_bind]
      constructor
      · intro hc
        have hcl : Consistent L := ((consistent_append_singleton L s).mp hc).1
        have hsome := ih.1 hcl
        rw [hR] at hsome
        cases hsome
      · intro m hm
        cases hm
    | some m0 =>
      rw [Option.some_bind, runSteps_singleton]
      obtain ⟨hconsL, hnodup, hlook⟩ := ih.2 m0 hR
      cases hsp : specEntry L s.entity with
      | none =>
        have hnil : stepsFor L s.entity = [] := (specEntry_eq_none_iff L s.entity).mp hsp
        have hl0 : lookupEntry m0 s.entity = none := by rw [hlook, hsp]
        have hstep : runStep m0 s =
            some (appendTypes (m0 ++ [(s.entity, s.loc, [])]) s.entity s.types) := by
          unfold runStep visitEntityLoc
          rw [hl0]
          rw [if_pos rfl, if_pos rfl]
        rw [hstep]
        have hcons' : Consistent (L ++ [s]) := by
          rw [consistent_append_singleton]
          refine ⟨hconsL, ?_⟩
          intro s' hs' he
          exact absurd hnil (stepsFor_ne_nil_of_mem hs' he)
        constructor
        · intro _
          rfl
        · intro m hm
          have hm' : m = appendTypes (m0 ++ [(s.entity, s.loc, [])]) s.entity s.types :=
            (Option.some.inj hm).symm
          subst hm'
          refine ⟨hcons', ?_, ?_⟩
          · rw [keysOf_appendTypes, keysOf_append]
            have hnm : s.entity ∉ keysOf m0 := (lookupEntry_eq_none_iff m0 s.entity).mp hl0
            have hkeys1 : keysOf [(s.entity, s.loc, ([] : List TypeInfo))] = [s.entity] := rfl
            rw [hkeys1]
            refine List.Nodup.append hnodup (List.nodup_singleton _) ?_
            intro a ha1 ha2
            rw [List.mem_singleton.mp ha2] at ha1
            exact hnm ha1
          · intro e
            rw [lookupEntry_appendTypes]
            by_cases he : s.entity = e
            · subst he
              rw [if_pos rfl]
              rw [lookupEntry_append_of_none hl0, if_pos rfl]
              unfold specEntry
              rw [stepsFor_append_singleton, hnil, if_pos rfl]
              simp
            · rw [if_neg he]
              have hsame : lookupEntry (m0 ++ [(s.entity, s.loc, [])]) e = lookupEntry m0 e := by
                cases hle : lookupEntry m0 e with
                | none => rw [lookupEntry_append_of_none hle, if_neg he]
                | some q => rw [lookupEntry_append_of_some hle]
              rw [hsame, hlook]
              unfold specEntry
              rw [stepsFor_append_singleton, if_neg he, List.append_nil]
      | some entry =>
        have hl0 : lookupEntry m0 s.entity = some entry := by rw [hlook, hsp]
        obtain ⟨q, rest, hq⟩ : ∃ q rest, stepsFor L s.entity = q :: rest := by
          cases hq : stepsFor L s.entity with
          | nil =>
            have hnone : specEntry L s.entity = none :=
              (specEntry_eq_none_iff L s.entity).mpr hq
            rw [hnone] at hsp
            cases hsp
          | cons q rest => exact ⟨q, rest, rfl⟩
        have hentry : entry = (q.loc, ((stepsFor L s.entity).map Step.types).flatten) := by
          unfold specEntry at hsp
          rw [hq] at hsp
          rw [hq]
          exact (Option.some.inj hsp).symm
        have hqmem : q ∈ L ∧ q.entity = s.entity :=
          mem_of_mem_stepsFor (hq ▸ List.mem_cons_self q rest)
        subst hentry
        by_cases hloc : s.loc = q.loc
        · have hstep : runStep m0 s = some (appendTypes m0 s.entity s.types) := by
            unfold runStep visitEntityLoc
            rw [hl0]
            show (if s.loc.archetype = q.loc.archetype then
                if s.loc.index = q.loc.index then some (appendTypes m0 s.entity s.types)
                else none
              else none) = some (appendTypes m0 s.entity s.types)
            rw [if_pos (by rw [hloc]), if_pos (by rw [hloc])]
          rw [hstep]
          have hcons' : Consistent (L ++ [s]) := by
            rw [consistent_append_singleton]
            refine ⟨hconsL, ?_⟩
            intro s' hs' he
            exact (hconsL s' hs' q hqmem.1 (he.trans hqmem.2.symm)).trans hloc.symm
          constructor
          · intro _
            rfl
          · intro m hm
            have hm' : m = appendTypes m0 s.entity s.types := (Option.some.inj hm).symm
            subst hm'
            refine ⟨hcons', ?_, ?_⟩
            · rw [keysOf_appendTypes]
              exact hnodup
            · intro e
              rw [lookupEntry_appendTypes]
              by_cases he : s.entity = e
              · subst he
                rw [if_pos rfl, hl0]
                unfold specEntry
                rw [stepsFor_append_singleton, if_pos rfl, hq, List.cons_append]
                simp [List.map_append]
              · rw [if_neg he, hlook]
                unfold specEntry
                rw [stepsFor_append_singleton, if_neg he, List.append_nil]
        · have hstep : runStep m0 s = none := by
            unfold runStep visitEntityLoc
            rw [hl0]
            show (if s.loc.archetype = q.loc.archetype then
                if s.loc.index = q.loc.index then some (appendTypes m0 s.entity s.types)
                else none
              else none) = none
            by_cases ha : s.loc.archetype = q.loc.archetype
            · by_cases hi : s.loc.index = q.loc.index
              · exact absurd (location_eq_of_fields ha hi) hloc
              · rw [if_pos ha, if_neg hi]
            · rw [if_neg ha]
          rw [hstep]
          constructor
          · intro hc
            have hc' := ((consistent_append_singleton L s).mp hc).2
            exact absurd ((hc' q hqmem.1 hqmem.2).symm) hloc
          · intro m hm
            cases hm

/-! ## The nested loops of WorldUIContext::new equal the flattened run -/

theorem visitEntities_eq_runSteps (gi : Nat) (tys : List TypeInfo) :
    ∀ (l : List (Nat × Nat)) (m : SnapshotMap),
      visitEntities m gi tys l =
        runSteps m (l.map (fun p => ⟨p.2, ⟨gi % 2 ^ 32, p.1⟩, tys⟩)) := by
  intro l
  induction l with
  | nil => intro m; rfl
  | cons p rest ih =>
    intro m
    obtain ⟨si, e⟩ := p
    rw [List.map_cons, runSteps_cons]
    show (match visitEntityLoc m ⟨gi % 2 ^ 32, si⟩ tys e with
        | none => none
        | some m' => visitEntities m' gi tys rest) =
      (match visitEntityLoc m ⟨gi % 2 ^ 32, si⟩ tys e with
        | none => none
        | some m' => runSteps m' (rest.map (fun p => ⟨p.2, ⟨gi % 2 ^ 32, p.1⟩, tys⟩)))
    cases visitEntityLoc m ⟨gi % 2 ^ 32, si⟩ tys e with
    | none => rfl
    | some m' => exact ih m'

theorem visitArchetype_eq_runSteps (m : SnapshotMap) (gi : Nat) (arch : Archetype) :
    visitArchetype m gi arch = runSteps m (archSteps gi arch) :=
  visitEntities_eq_runSteps gi arch.types arch.entities.enum m

theorem visitArchetypes_eq_runSteps :
    ∀ (l : List (Nat × Archetype)) (m : SnapshotMap),
      visitArchetypes m l =
        runSteps m ((l.map (fun p => archSteps p.1 p.2)).flatten) := by
  intro l
  induction l with
  | nil => intro m; rfl
  | cons p rest ih =>
    intro m
    obtain ⟨gi, arch⟩ := p
    rw [List.map_cons, List.flatten_cons, runSteps_append]
    show (match visitArchetype m gi arch with
      | none => none
      | some m' => visitArchetypes m' rest) = _
    rw [visitArchetype_eq_runSteps]
    cases runSteps m (archSteps gi arch) with
    | none => rfl
    | some m' =>
      rw [Option.some_bind]
      exact ih m'

theorem buildComponents_eq_runSteps (archs : List Archetype) :
    buildComponents archs = runSteps [] (buildSteps archs) :=
  visitArchetypes_eq_runSteps archs.enum []

/-! ## Counting occurrences per archetype -/

theorem enum_eq_enumFrom {α : Type} (l : List α) : l.enum = List.enumFrom 0 l := rfl

theorem mem_enumFrom_of_mem {α : Type} {x : α} {l : List α} (h : x ∈ l) :
    ∀ i : Nat, ∃ j, (j, x) ∈ List.enumFrom i l := by
  induction l with
  | nil => cases h
  | cons y ys ih =>
    intro i
    rcases List.mem_cons.mp h with h1 | h1
    · subst h1
      exact ⟨i, by rw [List.enumFrom_cons]; exact List.mem_cons_self _ _⟩
    · obtain ⟨j, hj⟩ := ih h1 (i + 1)
      exact ⟨j, by rw [List.enumFrom_cons]; exact List.mem_cons_of_mem _ hj⟩

theorem le_fst_of_mem_enumFrom {α : Type} {p : Nat × α} {l : List α} :
    ∀ {i : Nat}, p ∈ List.enumFrom i l → i ≤ p.1 := by
  induction l with
  | nil => intro i h; cases h
  | cons y ys ih =>
    intro i h
    rw [List.enumFrom_cons] at h
    rcases List.mem_cons.mp h with h1 | h1
    · rw [h1]
    · exact Nat.le_of_succ_le (ih h1)

theorem two_mem_enumFrom_of_two_le_count {e : Nat} {l : List Nat}
    (h : 2 ≤ l.count e) :
    ∀ i : Nat, ∃ j k, j ≠ k ∧ (j, e) ∈ List.enumFrom i l ∧ (k, e) ∈ List.enumFrom i l := by
  induction l with
  | nil => simp [List.count_nil] at h
  | cons x xs ih =>
    intro i
    by_cases hx : x = e
    · simp only [List.count_cons, beq_iff_eq.mpr hx, if_true] at h
      by_cases hone : 1 ≤ xs.count e
      · have hmem : e ∈ xs := List.count_pos_iff.mp hone
        obtain ⟨j, hj⟩ := mem_enumFrom_of_mem hmem (i + 1)
        refine ⟨i, j, ?_, ?_, ?_⟩
        · have hij : i + 1 ≤ j := le_fst_of_mem_enumFrom hj
          omega
        · rw [List.enumFrom_cons, hx]
          exact List.mem_cons_self _ _
        · rw [List.enumFrom_cons]
          exact List.mem_cons_of_mem _ hj
      · omega
    · simp only [List.count_cons, beq_eq_false_iff_ne.mpr hx, Bool.false_eq_true,
        if_false, Nat.add_zero] at h
      obtain ⟨j, k, hjk, hj, hk⟩ := ih h (i + 1)
      refine ⟨j, k, hjk, ?_, ?_⟩
      · rw [List.enumFrom_cons]
        exact List.mem_cons_of_mem _ hj
      · rw [List.enumFrom_cons]
        exact List.mem_cons_of_mem _ hk

theorem filter_enumFrom_length {e : Nat} (l : List Nat) :
    ∀ i : Nat,
      ((List.enumFrom i l).filter (fun p => p.2 == e)).length = l.count e := by
  induction l with
  | nil => intro i; rfl
  | cons x xs ih =>
    intro i
    rw [List.enumFrom_cons]
    by_cases hx : x = e
    · simp only [List.filter_cons, List.count_cons, beq_iff_eq.mpr hx, if_true,
        List.length_cons]
      rw [ih (i + 1)]
    · simp only [List.filter_cons, List.count_cons, beq_eq_false_iff_ne.mpr hx,
        Bool.false_eq_true, if_false]
      rw [ih (i + 1), Nat.add_zero]

theorem sum_map_const {α : Type} (l : List α) (c : Nat) :
    (l.map (fun _ => c)).sum = l.length * c := by
  induction l with
  | nil => simp
  | cons x xs ih =>
    rw [List.map_cons, List.sum_cons, ih, List.length_cons]
    ring

/-! ## Sum of the type-list contributions per entity -/

theorem stepsFor_archSteps (gi : Nat) (arch : Archetype) (e : Nat) :
    stepsFor (archSteps gi arch) e =
      ((arch.entities.enum).filter (fun p => p.2 == e)).map
        (fun p => ⟨p.2, ⟨gi % 2 ^ 32, p.1⟩, arch.types⟩) := by
  unfold stepsFor archSteps
  rw [List.filter_map]
  rfl

theorem sum_stepsFor_archSteps (gi : Nat) (arch : Archetype) (e : Nat) :
    ((stepsFor (archSteps gi arch) e).map (fun s => s.types.length)).sum =
      arch.entities.count e * arch.types.length := by
  rw [stepsFor_archSteps, List.map_map]
  show ((arch.entities.enum.filter (fun p => p.2 == e)).map
      (fun _ => arch.types.length)).sum = arch.entities.count e * arch.types.length
  rw [sum_map_const, enum_eq_enumFrom, filter_enumFrom_length]

theorem sum_stepsFor_enumFrom (e : Nat) :
    ∀ (l : List Archetype) (i : Nat),
      ((stepsFor (((List.enumFrom i l).map (fun p => archSteps p.1 p.2)).flatten) e).map
        (fun s => s.types.length)).sum =
      (l.map (fun a => a.entities.count e * a.types.length)).sum := by
  intro l
  induction l with
  | nil => intro i; rfl
  | cons a l ih =>
    intro i
    rw [List.enumFrom_cons, List.map_cons, List.flatten_cons]
    unfold stepsFor
    rw [List.filter_append, List.map_append, List.sum_append]
    have h1 : ((List.filter (fun s => s.entity == e) (archSteps i a)).map
        (fun s => s.types.length)).sum = a.entities.count e * a.types.length := by
      have haux := sum_stepsFor_archSteps i a e
      unfold stepsFor at haux
      exact haux
    rw [h1]
    have h2 := ih (i + 1)
    unfold stepsFor at h2
    rw [h2, List.map_cons, List.sum_cons]

theorem sum_stepsFor_buildSteps (archs : List Archetype) (e : Nat) :
    ((stepsFor (buildSteps archs) e).map (fun s => s.types.length)).sum =
      (archs.map (fun a => a.entities.count e * a.types.length)).sum := by
  unfold buildSteps
  rw [enum_eq_enumFrom]
  exact sum_stepsFor_enumFrom e archs 0

theorem sum_count_mul_eq_filter (e : Nat) :
    ∀ l : List Archetype, (∀ a ∈ l, a.entities.count e ≤ 1) →
      (l.map (fun a => a.entities.count e * a.types.length)).sum =
        ((l.filter (fun a => decide (e ∈ a.entities))).map (fun a => a.types.length)).sum := by
  intro l
  induction l with
  | nil => intro _; rfl
  | cons a l ih =>
    intro hc
    have hrest : ∀ a' ∈ l, a'.entities.count e ≤ 1 :=
      fun a' ha' => hc a' (List.mem_cons_of_mem _ ha')
    rw [List.map_cons, List.sum_cons, List.filter_cons]
    by_cases hmem : e ∈ a.entities
    · have h1 : a.entities.count e = 1 := by
        have hge : 0 < a.entities.count e := List.count_pos_iff.mpr hmem
        have hle := hc a (List.mem_cons_self a l)
        omega
      have hd : decide (e ∈ a.entities) = true := decide_eq_true hmem
      rw [hd, if_pos rfl, List.map_cons, List.sum_cons, h1, Nat.one_mul, ih hrest]
    · have h0 : a.entities.count e = 0 := List.count_eq_zero.mpr hmem
      have hd : decide (e ∈ a.entities) = false := decide_eq_false hmem
      rw [hd, if_neg (by simp : ¬ (false = true)), h0, Nat.zero_mul, Nat.zero_add, ih hrest]

theorem count_le_one_of_consistent {archs : List Archetype} {e : Nat}
    (hcons : Consistent (buildSteps archs)) :
    ∀ a ∈ archs, a.entities.count e ≤ 1 := by
  intro a ha
  by_contra hgt
  have h2 : 2 ≤ a.entities.count e := by omega
  obtain ⟨gi, hgi⟩ := mem_enumFrom_of_mem ha 0
  obtain ⟨j, k, hjk, hj, hk⟩ := two_mem_enumFrom_of_two_le_count h2 0
  have hstep1 : (⟨e, ⟨gi % 2 ^ 32, j⟩, a.types⟩ : Step) ∈ buildSteps archs := by
    unfold buildSteps
    rw [List.mem_flatten]
    refine ⟨archSteps gi a, List.mem_map_of_mem _ hgi, ?_⟩
    unfold archSteps
    rw [enum_eq_enumFrom]
    exact List.mem_map_of_mem _ hj
  have hstep2 : (⟨e, ⟨gi % 2 ^ 32, k⟩, a.types⟩ : Step) ∈ buildSteps archs := by
    unfold buildSteps
    rw [List.mem_flatten]
    refine ⟨archSteps gi a, List.mem_map_of_mem _ hgi, ?_⟩
    unfold archSteps
    rw [enum_eq_enumFrom]
    exact List.mem_map_of_mem _ hk
  have hloc := hcons _ hstep1 _ hstep2 rfl
  have hjk' : j = k := by
    have hidx := congrArg Location.index hloc
    simpa using hidx
  exact hjk hjk'

theorem sum_filter_of_consistent {archs : List Archetype} {e : Nat}
    (hcons : Consistent (buildSteps archs)) :
    ((stepsFor (buildSteps archs) e).map (fun s => s.types.length)).sum =
      ((archs.filter (fun a => decide (e ∈ a.entities))).map
        (fun a => a.types.length)).sum := by
  rw [sum_stepsFor_buildSteps]
  exact sum_count_mul_eq_filter e archs (count_le_one_of_consistent hcons)

theorem step_exists_of_mem {archs : List Archetype} {e : Nat}
    (he : ∃ a ∈ archs, e ∈ a.entities) :
    ∃ s ∈ buildSteps archs, s.entity = e := by
  obtain ⟨a, ha, hea⟩ := he
  obtain ⟨gi, hgi⟩ := mem_enumFrom_of_mem ha 0
  obtain ⟨j, hj⟩ := mem_enumFrom_of_mem hea 0
  refine ⟨⟨e, ⟨gi % 2 ^ 32, j⟩, a.types⟩, ?_, rfl⟩
  unfold buildSteps
  rw [List.mem_flatten]
  refine ⟨archSteps gi a, List.mem_map_of_mem _ hgi, ?_⟩
  unfold archSteps
  rw [enum_eq_enumFrom]
  exact List.mem_map_of_mem _ hj

theorem countP_keys (m : SnapshotMap) (e : Nat) :
    m.countP (fun p => p.1 == e) = (keysOf m).count e := by
  induction m with
  | nil => rfl
  | cons p m ih =>
    unfold keysOf
    rw [List.map_cons, List.countP_cons, List.count_cons, ih]
    unfold keysOf
    rfl

/-! ## Claims about short_name -/

/-- C4: short_name correctly shortens generic and nested-generic names:
the two spec examples evaluate as stated, with nested generic arguments
recursively shortened. -/
theorem short_name_spec_examples :
    short_name ("a::b::Handle<c::d::Material>".data) =
      some ("Handle<Material>".data) ∧
    short_name ("a::b::Outer<c::Inner<d::e::Leaf>>".data) =
      some ("Outer<Inner<Leaf>>".data) := by
  decide

/-- C5: on any input without a namespace separator and without angle
brackets, short_name returns its input unchanged. -/
theorem short_name_id_on_plain (s : List Char)
    (hsep : ¬ ∃ l1 l2, s = l1 ++ ':' :: ':' :: l2)
    (hlt : '<' ∉ s) (hgt : '>' ∉ s) :
    short_name s = some s := by
  rw [short_name_def]
  rw [(findChar_eq_none_iff '<' s).mpr hlt]
  rw [rfindSep_eq_none_of_noSep hsep]

/-- Witness for C5 at a concrete plain name. -/
theorem short_name_id_on_plain_witness :
    short_name ("Transform".data) = some ("Transform".data) :=
  short_name_id_on_plain _ (noSep_of_rfindSep_eq_none (by decide))
    (by decide) (by decide)

/-- C8: on any input containing an opening angle bracket but no closing
one, short_name panics (the unchecked unwrap of rfind), modelled as
none; it is total only under the precondition that an input containing
the opening bracket also contains the closing one. -/
theorem short_name_panics_without_closing (s : List Char)
    (hlt : '<' ∈ s) (hgt : '>' ∉ s) :
    short_name s = none := by
  rw [short_name_def]
  cases hf : findChar '<' s with
  | none => exact absurd hlt ((findChar_eq_none_iff '<' s).mp hf)
  | some ao => rw [(rfindChar_eq_none_iff '>' s).mpr hgt]

/-- Witness for C8 at a concrete input. -/
theorem short_name_panics_without_closing_witness :
    short_name ("Vec<A".data) = none :=
  short_name_panics_without_closing _ (by decide) (by decide)

/-- C1 (counterexample): the comma-separated segments of a
multi-argument generic are not preserved: on a two-argument generic
whose interior holds namespace separators the result keeps only the
suffix after the last separator, dropping the first argument and the
comma. -/
theorem short_name_multiarg_drops_segment :
    short_name ("m::Map<a::K, b::V>".data) = some ("Map<V>".data) ∧
    ',' ∈ "m::Map<a::K, b::V>".data ∧ ',' ∉ "Map<V>".data := by
  decide

/-- C1 (amended): for a name whose first opening angle bracket at ao
precedes the last closing one at ac, short_name applies a single
recursive pass to the whole interior string between them (and shortens
the part before ao to its last namespace segment, keeping the part
after ac unchanged); the comma-separated segments of the argument list
are not preserved in general: when the interior contains no opening
bracket but contains a namespace separator, only the interior's suffix
after its last separator is kept, dropping any earlier comma-separated
arguments. -/
theorem short_name_single_pass_interior (s : List Char) (ao ac : Nat)
    (hao : findChar '<' s = some ao) (hac : rfindChar '>' s = some ac)
    (hle : ao + 1 ≤ ac) :
    short_name s =
      (short_name ((s.take ac).drop (ao + 1))).map (fun ib =>
        shortBeforeGenerics (s.take ao) ++ '<' :: (ib ++ '>' :: s.drop (ac + 1))) ∧
    (∀ k, findChar '<' ((s.take ac).drop (ao + 1)) = none →
      rfindSep ((s.take ac).drop (ao + 1)) = some k →
      short_name s = some (shortBeforeGenerics (s.take ao) ++
        '<' :: (((s.take ac).drop (ao + 1)).drop (k + 2) ++ '>' :: s.drop (ac + 1)))) := by
  have h1 : short_name s =
      (short_name ((s.take ac).drop (ao + 1))).map (fun ib =>
        shortBeforeGenerics (s.take ao) ++ '<' :: (ib ++ '>' :: s.drop (ac + 1))) := by
    rw [short_name_def]
    simp only [hao, hac, if_pos hle]
    cases short_name ((s.take ac).drop (ao + 1)) with
    | none => rfl
    | some ib => rfl
  refine ⟨h1, ?_⟩
  intro k hn hsep
  rw [h1, short_name_def ((s.take ac).drop (ao + 1))]
  simp only [hn, hsep]
  rfl

/-- Witness for the amended C1 at a concrete two-argument generic. -/
theorem short_name_single_pass_interior_witness :
    short_name ("q::Pair<c::A, d::B>".data) = some ("Pair<B>".data) :=
  ((short_name_single_pass_interior ("q::Pair<c::A, d::B>".data) 7 18
    (by decide) (by decide) (by decide)).2 7 (by decide) (by decide)).trans
    (by decide)

/-! ## Claims about the snapshot build -/

/-- C2: when the build succeeds, every entity occurring in some storage
group has exactly one entry in the components map, and the length of its
component-type list equals the sum of the component-type-list lengths of
every storage group containing that entity. -/
theorem buildComponents_unique_entry_and_length (archs : List Archetype)
    (m : SnapshotMap) (hm : buildComponents archs = some m) (e : Nat)
    (he : ∃ a ∈ archs, e ∈ a.entities) :
    m.countP (fun p => p.1 == e) = 1 ∧
    ∃ loc tys, lookupEntry m e = some (loc, tys) ∧
      tys.length = ((archs.filter (fun a => decide (e ∈ a.entities))).map
        (fun a => a.types.length)).sum := by
  rw [buildComponents_eq_runSteps] at hm
  obtain ⟨hcons, hnodup, hlook⟩ := (runSteps_spec (buildSteps archs)).2 m hm
  obtain ⟨s0, hs0mem, hs0e⟩ := step_exists_of_mem he
  obtain ⟨q, rest, hq⟩ : ∃ q rest, stepsFor (buildSteps archs) e = q :: rest := by
    cases hq : stepsFor (buildSteps archs) e with
    | nil => exact absurd hq (stepsFor_ne_nil_of_mem hs0mem hs0e)
    | cons q rest => exact ⟨q, rest, rfl⟩
  have hlookup : lookupEntry m e =
      some (q.loc, (((q :: rest) : List Step).map Step.types).flatten) := by
    rw [hlook e]
    unfold specEntry
    rw [hq]
  refine ⟨?_, ?_⟩
  · have hmem : e ∈ keysOf m := by
      by_contra hc
      rw [(lookupEntry_eq_none_iff m e).mpr hc] at hlookup
      cases hlookup
    rw [countP_keys]
    exact List.count_eq_one_of_mem hnodup hmem
  · refine ⟨q.loc, _, hlookup, ?_⟩
    have hlen : ((((q :: rest) : List Step).map Step.types).flatten).length =
        ((stepsFor (buildSteps archs) e).map (fun s => s.types.length)).sum := by
      rw [List.length_flatten, ← hq, List.map_map]
      rfl
    rw [hlen, sum_filter_of_consistent hcons]

/-- Witness for C2 on a concrete world of two archetypes. -/
theorem buildComponents_unique_entry_and_length_witness :
    ([(3, (⟨0, 0⟩ : Location), [(⟨1, "p::A".data⟩ : TypeInfo), ⟨2, "B".data⟩]),
      (4, ⟨0, 1⟩, [⟨1, "p::A".data⟩, ⟨2, "B".data⟩]),
      (5, ⟨1, 0⟩, [])] : SnapshotMap).countP (fun p => p.1 == 4) = 1 ∧
    ∃ loc tys,
      lookupEntry [(3, (⟨0, 0⟩ : Location), [(⟨1, "p::A".data⟩ : TypeInfo), ⟨2, "B".data⟩]),
        (4, ⟨0, 1⟩, [⟨1, "p::A".data⟩, ⟨2, "B".data⟩]), (5, ⟨1, 0⟩, [])] 4 =
        some (loc, tys) ∧
      tys.length = ((([⟨[3, 4], [⟨1, "p::A".data⟩, ⟨2, "B".data⟩]⟩, ⟨[5], []⟩] :
          List Archetype).filter (fun a => decide (4 ∈ a.entities))).map
        (fun a => a.types.length)).sum :=
  buildComponents_unique_entry_and_length
    [⟨[3, 4], [⟨1, "p::A".data⟩, ⟨2, "B".data⟩]⟩, ⟨[5], []⟩] _ (by decide) 4 (by decide)

/-- C3: an entity encountered in more than one scan position gets its
group's component-type list appended to its existing entry when the
computed Location equals the recorded one (on success the entry is the
scan-order concatenation of all its occurrences' type lists), while any
occurrence with a differing Location aborts the whole build (none, the
failed assert_eq), never silently picking one of the two Locations. -/
theorem buildComponents_mismatch_fatal_append (archs : List Archetype) :
    ((∃ s1 ∈ buildSteps archs, ∃ s2 ∈ buildSteps archs,
        s1.entity = s2.entity ∧ s1.loc ≠ s2.loc) →
      buildComponents archs = none) ∧
    (∀ m, buildComponents archs = some m → ∀ e loc tys,
      lookupEntry m e = some (loc, tys) →
      tys = ((stepsFor (buildSteps archs) e).map Step.types).flatten) := by
  constructor
  · rintro ⟨s1, h1, s2, h2, he, hne⟩
    cases hb : buildComponents archs with
    | none => rfl
    | some m =>
      rw [buildComponents_eq_runSteps] at hb
      have hcons := ((runSteps_spec (buildSteps archs)).2 m hb).1
      exact absurd (hcons s1 h1 s2 h2 he) hne
  · intro m hm e loc tys hlt
    rw [buildComponents_eq_runSteps] at hm
    obtain ⟨hcons, hnodup, hlook⟩ := (runSteps_spec (buildSteps archs)).2 m hm
    have hsp := hlook e
    rw [hlt] at hsp
    unfold specEntry at hsp
    cases hq : stepsFor (buildSteps archs) e with
    | nil =>
      rw [hq] at hsp
      cases hsp
    | cons q rest =>
      rw [hq] at hsp
      have hpair := Option.some.inj hsp
      exact congrArg Prod.snd hpair

/-- Witness for C3: a duplicated entity in one archetype aborts the
build, and on a successful build an entity's types are the scan-order
concatenation of its occurrences' type lists. -/
theorem buildComponents_mismatch_fatal_append_witness :
    buildComponents [⟨[5, 5], [⟨1, "T".data⟩]⟩] = none ∧
    [(⟨1, "T".data⟩ : TypeInfo)] =
      ((stepsFor (buildSteps [⟨[7], [⟨1, "T".data⟩]⟩]) 7).map Step.types).flatten :=
  ⟨(buildComponents_mismatch_fatal_append [⟨[5, 5], [⟨1, "T".data⟩]⟩]).1
      ⟨⟨5, ⟨0, 0⟩, [⟨1, "T".data⟩]⟩, by decide,
        ⟨5, ⟨0, 1⟩, [⟨1, "T".data⟩]⟩, by decide, rfl, by decide⟩,
    (buildComponents_mismatch_fatal_append [⟨[7], [⟨1, "T".data⟩]⟩]).2
      [(7, ⟨0, 0⟩, [⟨1, "T".data⟩])] (by decide) 7 ⟨0, 0⟩ [⟨1, "T".data⟩] (by decide)⟩

/-- C6: the snapshot build is deterministic: two builds from the same
unmutated archetype list produce the same map, hence identical Locations
and component-type lists for every entity. -/
theorem buildComponents_deterministic (archs : List Archetype)
    (m1 m2 : SnapshotMap) (h1 : buildComponents archs = some m1)
    (h2 : buildComponents archs = some m2) :
    ∀ e, lookupEntry m1 e = lookupEntry m2 e := by
  have hm : m1 = m2 := Option.some.inj (h1.symm.trans h2)
  intro e
  rw [hm]

/-- Witness for C6 on a concrete world. -/
theorem buildComponents_deterministic_witness :
    lookupEntry [(7, (⟨0, 0⟩ : Location), [(⟨1, "T".data⟩ : TypeInfo)])] 7 =
      lookupEntry [(7, (⟨0, 0⟩ : Location), [(⟨1, "T".data⟩ : TypeInfo)])] 7 :=
  buildComponents_deterministic [⟨[7], [⟨1, "T".data⟩]⟩] _ _ (by decide) (by decide) 7

/-! ## Claims about the renderer and the ignore set -/

theorem lookup_isSome_of_components_of {m : SnapshotMap} {e : Nat}
    {comps : List (Location × TypeInfo)} (h : components_of m e = some comps) :
    (lookupEntry m e).isSome = true := by
  unfold components_of at h
  cases hl : lookupEntry m e with
  | none =>
    rw [hl] at h
    exact Option.noConfusion h
  | some lt => rfl

theorem entityUIList_nodeNoChildren (env : RenderEnv) (m : SnapshotMap)
    (params : WorldInspectorParams) (e : Nat) (rest : EntityForest) :
    entityUIList env m params (.nodeNoChildren e rest) =
      match components_of m e with
      | none => none
      | some comps =>
        match compUIs env params comps with
        | none => none
        | some compEvents =>
          match entityUIList env m params rest with
          | none => none
          | some restEvents =>
            some (entityRegion env e compEvents
              [UIEvent.label ("No children".data)] :: restEvents) := rfl

theorem entityUIList_nodeChildren (env : RenderEnv) (m : SnapshotMap)
    (params : WorldInspectorParams) (e : Nat) (f rest : EntityForest) :
    entityUIList env m params (.nodeChildren e f rest) =
      match components_of m e with
      | none => none
      | some comps =>
        match compUIs env params comps with
        | none => none
        | some compEvents =>
          match entityUIList env m params f with
          | none => none
          | some cevs =>
            match entityUIList env m params rest with
            | none => none
            | some restEvents =>
              some (entityRegion env e compEvents
                (UIEvent.label ("Children".data) :: cevs) :: restEvents) := rfl

/-- C7: a rendered (non-ignored) component for which the dispatcher
reports it could not produce a rendering gets exactly the literal
fallback label inside its region, and never any inspector output. -/
theorem componentUI_fallback (env : RenderEnv) (params : WorldInspectorParams)
    (location : Location) (type_info : TypeInfo) (sn : List Char)
    (hgen : env.generate location type_info = none)
    (hig : params.should_ignore_component type_info.id = false)
    (hsn : short_name type_info.type_name = some sn) :
    componentUI env params location type_info =
      some [UIEvent.collapsing sn [UIEvent.label inspectableFallback]] := by
  unfold componentUI
  rw [hig]
  rw [if_neg (by simp : ¬ (false = true))]
  rw [hsn, hgen]

/-- Witness for C7 with a dispatcher that has no inspector registered. -/
theorem componentUI_fallback_witness :
    componentUI ⟨fun _ _ => none, fun _ => none⟩ ⟨[]⟩ ⟨0, 0⟩ ⟨1, "p::T".data⟩ =
      some [UIEvent.collapsing ("T".data) [UIEvent.label inspectableFallback]] :=
  componentUI_fallback _ _ _ _ _ rfl rfl (by decide)

/-- C9: components_of indexes the snapshot map without a guard and
panics (none) on an entity without an entry; consequently every entity
reached by the hierarchy walk of entity_ui must have a snapshot entry
for the walk to complete. -/
theorem components_of_requires_entry :
    (∀ (m : SnapshotMap) (e : Nat),
      lookupEntry m e = none → components_of m e = none) ∧
    (∀ (env : RenderEnv) (m : SnapshotMap) (params : WorldInspectorParams)
      (t : EntityForest) (evs : List UIEvent),
      entityUIList env m params t = some evs →
      ∀ e ∈ forestEntities t, (lookupEntry m e).isSome = true) := by
  constructor
  · intro m e h
    unfold components_of
    rw [h]
  · intro env m params t
    induction t with
    | nil =>
      intro evs _ e he
      cases he
    | nodeNoChildren e0 rest ih =>
      intro evs hev e he
      rw [entityUIList_nodeNoChildren] at hev
      cases hco : components_of m e0 with
      | none =>
        rw [hco] at hev
        exact Option.noConfusion hev
      | some comps =>
        rw [hco] at hev
        have hev1 : (match compUIs env params comps with
            | none => none
            | some compEvents =>
              match entityUIList env m params rest with
              | none => none
              | some restEvents =>
                some (entityRegion env e0 compEvents
                  [UIEvent.label ("No children".data)] :: restEvents)) = some evs := hev
        cases hcu : compUIs env params comps with
        | none =>
          rw [hcu] at hev1
          exact Option.noConfusion hev1
        | some compEvents =>
          rw [hcu] at hev1
          have hev2 : (match entityUIList env m params rest with
              | none => none
              | some restEvents =>
                some (entityRegion env e0 compEvents
                  [UIEvent.label ("No children".data)] :: restEvents)) = some evs := hev1
          cases hr : entityUIList env m params rest with
          | none =>
            rw [hr] at hev2
            exact Option.noConfusion hev2
          | some restEvents =>
            rcases List.mem_cons.mp he with he0 | he1
            · rw [he0]
              exact lookup_isSome_of_components_of hco
            · exact ih restEvents hr e he1
    | nodeChildren e0 f rest ihf ihr =>
      intro evs hev e he
      rw [entityUIList_nodeChildren] at hev
      cases hco : components_of m e0 with
      | none =>
        rw [hco] at hev
        exact Option.noConfusion hev
      | some comps =>
        rw [hco] at hev
        have hev1 : (match compUIs env params comps with
            | none => none
            | some compEvents =>
              match entityUIList env m params f with
              | none => none
              | some cevs =>
                match entityUIList env m params rest with
                | none => none
                | some restEvents =>
                  some (entityRegion env e0 compEvents
                    (UIEvent.label ("Children".data) :: cevs) :: restEvents)) =
            some evs := hev
        cases hcu : compUIs env params comps with
        | none =>
          rw [hcu] at hev1
          exact Option.noConfusion hev1
        | some compEvents =>
          rw [hcu] at hev1
          have hev2 : (match entityUIList env m params f with
              | none => none
              | some cevs =>
                match entityUIList env m params rest with
                | none => none
                | some restEvents =>
                  some (entityRegion env e0 compEvents
                    (UIEvent.label ("Children".data) :: cevs) :: restEvents)) =
              some evs := hev1
          cases hf : entityUIList env m params f with
          | none =>
            rw [hf] at hev2
            exact Option.noConfusion hev2
          | some cevs =>
            rw [hf] at hev2
            have hev3 : (match entityUIList env m params rest with
                | none => none
                | some restEvents =>
                  some (entityRegion env e0 compEvents
                    (UIEvent.label ("Children".data) :: cevs) :: restEvents)) =
                some evs := hev2
            cases hr : entityUIList env m params rest with
            | none =>
              rw [hr] at hev3
              exact Option.noConfusion hev3
            | some restEvents =>
              rcases List.mem_cons.mp he with he0 | he1
              · rw [he0]
                exact lookup_isSome_of_components_of hco
              · rcases List.mem_append.mp he1 with he2 | he2
                · exact ihf cevs hf e he2
                · exact ihr restEvents hr e he2

/-- Witness for C9: the empty map makes components_of panic, and a
completed walk only visits entities with entries. -/
theorem components_of_requires_entry_witness :
    components_of [] 0 = none ∧
    ∀ e ∈ forestEntities (.nodeNoChildren 1 .nil),
      (lookupEntry [(1, (⟨0, 0⟩ : Location), ([] : List TypeInfo))] e).isSome = true :=
  ⟨components_of_requires_entry.1 [] 0 rfl,
    components_of_requires_entry.2 ⟨fun _ _ => some [], fun _ => none⟩
      [(1, ⟨0, 0⟩, [])] ⟨[]⟩ (.nodeNoChildren 1 .nil) _ rfl⟩

/-- C10: after ignore_component with TypeId t, should_ignore_component
answers true for t, and the membership answer for every other TypeId is
unchanged by the call. -/
theorem ignore_component_spec (params : WorldInspectorParams) (t u : Nat) :
    (params.ignore_component t).should_ignore_component t = true ∧
    (u ≠ t → (params.ignore_component t).should_ignore_component u =
      params.should_ignore_component u) := by
  unfold WorldInspectorParams.ignore_component WorldInspectorParams.should_ignore_component
  constructor
  · by_cases h : params.ignore_components.contains t = true
    · rw [if_pos h]
      exact h
    · rw [if_neg h]
      show (t :: params.ignore_components).contains t = true
      simp [List.contains_cons]
  · intro hu
    by_cases h : params.ignore_components.contains t = true
    · rw [if_pos h]
    · rw [if_neg h]
      show (t :: params.ignore_components).contains u = params.ignore_components.contains u
      simp only [List.contains_cons, beq_eq_false_iff_ne.mpr hu, Bool.false_or]

/-- Witness for C10 at concrete TypeIds. -/
theorem ignore_component_spec_witness :
    ((⟨[9]⟩ : WorldInspectorParams).ignore_component 5).should_ignore_component 5 = true ∧
    ((⟨[9]⟩ : WorldInspectorParams).ignore_component 5).should_ignore_component 7 =
      (⟨[9]⟩ : WorldInspectorParams).should_ignore_component 7 :=
  ⟨(ignore_component_spec ⟨[9]⟩ 5 7).1, (ignore_component_spec ⟨[9]⟩ 5 7).2 (by decide)⟩
